import Mathlib

/-!
Verification of the bit-oriented LZ77-style decoder in `src/main.go`
(`decodeLZ77`), shallowly embedded over `List Char` bitstreams and
`List Nat` byte sequences.

The scan loop of the Go source is embedded as a function that consumes the
remaining bitstream (`bitStream[position:]`) while carrying the cursor
`position` for error reporting. The recursion is indexed by a fuel counter
that ticks once per loop iteration; since every iteration consumes at least
one symbol of the stream, `len(bitStream)` iterations always suffice, and
that is the fuel `decodeLZ77` passes (`decodeAux_fuel_irrel` below shows any
fuel of at least the remaining length gives the same result). Exhausted fuel
returns like the loop exit; with the fuel supplied by `decodeLZ77` this can
only happen once the stream is consumed.
-/

namespace Voynich

/-- Error kinds produced by `decodeLZ77` (its `fmt.Errorf` calls), each
carrying the cursor position at which the fault was detected. -/
inductive DecodeError where
  | unexpectedEndOfStream (pos : Nat)
  | incompleteLiteral (pos : Nat)
  | incompleteBackReference (pos : Nat)
deriving DecidableEq, Repr

/-- Result of a decode call: the Go function returns `(string, error)`, with
the partial output returned alongside any error. -/
inductive DecodeResult where
  | ok (out : List Nat)
  | err (out : List Nat) (e : DecodeError)
deriving DecidableEq, Repr

/-- The output component of a decode result (returned both on success and
alongside an error). -/
def DecodeResult.output : DecodeResult → List Nat
  | .ok out => out
  | .err out _ => out

/-- Whether a result carries the `UnexpectedEndOfStream` error. -/
def DecodeResult.isEOSErr : DecodeResult → Bool
  | .err _ (.unexpectedEndOfStream _) => true
  | _ => false

/-- Big-endian parse of a run of bit characters, as in the three accumulation
loops of `decodeLZ77` (`charCode += 1 << (7-i)`,
`offset += 1 << (offsetBits-1-i)`, `length += 1 << (lengthBits-1-i)`): the
character at index `i` of a field of width `k` contributes `2 ^ (k - 1 - i)`
when it is `'1'` and `0` otherwise. -/
def bitsToNatAux : List Char → Nat → Nat → Nat
  | [], _, acc => acc
  | b :: rest, k, acc =>
      bitsToNatAux rest (k - 1) (if b = '1' then acc + 2 ^ (k - 1) else acc)

/-- Big-endian unsigned value of a bit-character field. -/
def bitsToNat (bits : List Char) : Nat :=
  bitsToNatAux bits bits.length 0

/-- The back-reference copy loop of `decodeLZ77` (lines 111–118): starting at
source index `start`, copy up to `n` bytes one at a time; each copied byte is
appended to the search buffer as it is produced (so the bound check observes
the buffer's growth in real time), and if the source index is not below the
buffer's current length the loop breaks early. Returns the emitted bytes and
the final search buffer. -/
def backRefCopy : Nat → Nat → List Nat → List Nat × List Nat
  | _, 0, buf => ([], buf)
  | start, n + 1, buf =>
    if h : start < buf.length then
      let ch := buf.get ⟨start, h⟩
      let r := backRefCopy (start + 1) n (buf ++ [ch])
      (ch :: r.1, r.2)
    else
      ([], buf)

/-- The scan loop of `decodeLZ77`, consuming the remaining bitstream `rest`
(equal to the Go `bitStream[position:]`) while carrying the Go cursor
`position` for error reporting, the search buffer, and the accumulated
output, with one unit of fuel per loop iteration. Each iteration with
`rest ≠ []` is one pass of the Go loop; the Go loop guard
`position < len(bitStream)` is `rest ≠ []`, and the in-loop guard
`position + 1 > len(bitStream)` is `pos + 1 > pos + rest.length`. -/
def decodeAux (ob lb : Nat) : Nat → List Char → Nat → List Nat → List Nat → DecodeResult
  | 0, _, _, _, out => .ok out
  | _ + 1, [], _, _, out => .ok out
  | fuel + 1, c :: rest, pos, buf, out =>
    -- `if position+1 > len(bitStream)` with `len(bitStream) = pos + (c :: rest).length`
    if pos + 1 > pos + (c :: rest).length then
      .err out (.unexpectedEndOfStream pos)
    else if c = '0' then
      -- literal: read next 8 bits as ASCII
      if 8 > rest.length then
        .err out (.incompleteLiteral (pos + 1))
      else
        let charCode := bitsToNat (rest.take 8)
        -- add printable characters only
        if 32 ≤ charCode ∧ charCode ≤ 126 then
          let buf1 := buf ++ [charCode]
          -- maintain sliding window size: `searchBuffer = searchBuffer[1:]`
          let buf2 := if buf1.length > 1 <<< ob then buf1.drop 1 else buf1
          decodeAux ob lb fuel (rest.drop 8) (pos + 1 + 8) buf2 (out ++ [charCode])
        else
          decodeAux ob lb fuel (rest.drop 8) (pos + 1 + 8) buf out
    else if c = '1' then
      -- back-reference: read (offsetBits + lengthBits) bits
      if ob + lb > rest.length then
        .err out (.incompleteBackReference (pos + 1))
      else
        let off := bitsToNat (rest.take ob)
        let len := bitsToNat ((rest.drop ob).take lb)
        if off > buf.length ∨ len = 0 then
          -- invalid reference, skip
          decodeAux ob lb fuel (rest.drop (ob + lb)) (pos + 1 + ob + lb) buf out
        else
          let r := backRefCopy (buf.length - off) len buf
          -- maintain sliding window size: keep the most recent `1 << ob` bytes
          let buf2 := if r.2.length > 1 <<< ob then r.2.drop (r.2.length - 1 <<< ob) else r.2
          decodeAux ob lb fuel (rest.drop (ob + lb)) (pos + 1 + ob + lb) buf2 (out ++ r.1)
    else
      -- neither branch taken: only the flag bit was consumed
      decodeAux ob lb fuel rest (pos + 1) buf out

/-- `decodeLZ77(bitStream, offsetBits, lengthBits)`: scan from position 0 with
empty search buffer and empty output (one fuel unit per symbol is enough,
every iteration consuming at least one). -/
def decodeLZ77 (bitStream : List Char) (offsetBits lengthBits : Nat) : DecodeResult :=
  decodeAux offsetBits lengthBits bitStream.length bitStream 0 [] []

/-- 8-bit big-endian bit encoding of a byte value, most significant bit
first (bit `7 - i` of the value at index `i`). -/
def byteBits (c : Nat) : List Char :=
  (List.range 8).map (fun i => if c.testBit (7 - i) then '1' else '0')

/-- The literal-only encoding of property P4: each character contributes a
'0' flag bit followed by its 8-bit big-endian code. -/
def encodeLiterals (s : List Nat) : List Char :=
  s.flatMap (fun c => '0' :: byteBits c)

/-- Instrumented back-reference copy loop: identical to `backRefCopy` but
additionally records the search-buffer length right after each single-byte
append. Returns (emitted bytes, final buffer, recorded lengths). -/
def backRefCopyObs : Nat → Nat → List Nat → List Nat × List Nat × List Nat
  | _, 0, buf => ([], buf, [])
  | start, n + 1, buf =>
    if h : start < buf.length then
      let ch := buf.get ⟨start, h⟩
      let r := backRefCopyObs (start + 1) n (buf ++ [ch])
      (ch :: r.1, r.2.1, (buf.length + 1) :: r.2.2)
    else
      ([], buf, [])

/-- Observation trace of one decode run: `entries` records the search-buffer
length at each evaluation of the scan-loop condition (the token boundaries,
including the final evaluation that exits the loop and the iterations that
return an error), and `appends` records the search-buffer length immediately
after each individual append to it — including the appends made inside a
back-reference copy loop before the token's trim step runs. -/
structure BufTrace where
  entries : List Nat
  appends : List Nat
deriving DecidableEq, Repr

/-- Instrumented scan loop: identical to `decodeAux` but also returns the
`BufTrace` of search-buffer lengths observed during the run. -/
def decodeObsAux (ob lb : Nat) :
    Nat → List Char → Nat → List Nat → List Nat → DecodeResult × BufTrace
  | 0, _, _, buf, out => (.ok out, ⟨[buf.length], []⟩)
  | _ + 1, [], _, buf, out => (.ok out, ⟨[buf.length], []⟩)
  | fuel + 1, c :: rest, pos, buf, out =>
    if pos + 1 > pos + (c :: rest).length then
      (.err out (.unexpectedEndOfStream pos), ⟨[buf.length], []⟩)
    else if c = '0' then
      if 8 > rest.length then
        (.err out (.incompleteLiteral (pos + 1)), ⟨[buf.length], []⟩)
      else
        let charCode := bitsToNat (rest.take 8)
        if 32 ≤ charCode ∧ charCode ≤ 126 then
          let buf1 := buf ++ [charCode]
          let buf2 := if buf1.length > 1 <<< ob then buf1.drop 1 else buf1
          let r := decodeObsAux ob lb fuel (rest.drop 8) (pos + 1 + 8) buf2 (out ++ [charCode])
          (r.1, ⟨buf.length :: r.2.entries, buf1.length :: r.2.appends⟩)
        else
          let r := decodeObsAux ob lb fuel (rest.drop 8) (pos + 1 + 8) buf out
          (r.1, ⟨buf.length :: r.2.entries, r.2.appends⟩)
    else if c = '1' then
      if ob + lb > rest.length then
        (.err out (.incompleteBackReference (pos + 1)), ⟨[buf.length], []⟩)
      else
        let off := bitsToNat (rest.take ob)
        let len := bitsToNat ((rest.drop ob).take lb)
        if off > buf.length ∨ len = 0 then
          let r := decodeObsAux ob lb fuel (rest.drop (ob + lb)) (pos + 1 + ob + lb) buf out
          (r.1, ⟨buf.length :: r.2.entries, r.2.appends⟩)
        else
          let rc := backRefCopyObs (buf.length - off) len buf
          let buf2 :=
            if rc.2.1.length > 1 <<< ob then rc.2.1.drop (rc.2.1.length - 1 <<< ob) else rc.2.1
          let r :=
            decodeObsAux ob lb fuel (rest.drop (ob + lb)) (pos + 1 + ob + lb) buf2 (out ++ rc.1)
          (r.1, ⟨buf.length :: r.2.entries, rc.2.2 ++ r.2.appends⟩)
    else
      let r := decodeObsAux ob lb fuel rest (pos + 1) buf out
      (r.1, ⟨buf.length :: r.2.entries, r.2.appends⟩)

/-- The observation trace of a full `decodeLZ77` run. -/
def decodeLZ77Trace (bitStream : List Char) (offsetBits lengthBits : Nat) : BufTrace :=
  (decodeObsAux offsetBits lengthBits bitStream.length bitStream 0 [] []).2

/-- Go slice expression `s[a:b]`: evaluates to `none` (a panic) unless
`a ≤ b ≤ len(s)`. -/
def goSlice (s : List Char) (a b : Nat) : Option (List Char) :=
  if a ≤ b ∧ b ≤ s.length then some ((s.take b).drop a) else none

/-- Go suffix slice `s[a:]` with a (possibly negative) integer index:
evaluates to `none` (a panic) unless `0 ≤ a ≤ len(s)`. -/
def goSliceFrom (s : List Nat) (a : Int) : Option (List Nat) :=
  if 0 ≤ a ∧ a ≤ s.length then some (s.drop a.toNat) else none

/-- Checked back-reference copy loop: as `backRefCopy`, but the buffer read
`searchBuffer[startPos+i]` is a checked access whose failure (`none`)
represents a Go index panic; the loop's own bound check precedes the access,
as in the source. -/
def backRefCopyChk : Nat → Nat → List Nat → Option (List Nat × List Nat)
  | _, 0, buf => some ([], buf)
  | start, n + 1, buf =>
    if start ≥ buf.length then some ([], buf)
    else
      buf[start]?.bind fun ch =>
        (backRefCopyChk (start + 1) n (buf ++ [ch])).bind fun r =>
          some (ch :: r.1, r.2)

/-- Checked, cursor-indexed embedding of `decodeLZ77`: the scan loop indexes
into the full bitstream by `position` exactly as the Go source does, and
every string slice and buffer access it performs is a checked operation
whose failure (`none`) represents a Go panic. Fuel ticks once per loop
iteration as in `decodeAux`. -/
def decodeChkAux (s : List Char) (ob lb : Nat) :
    Nat → Nat → List Nat → List Nat → Option DecodeResult
  | 0, _, _, out => some (.ok out)
  | fuel + 1, pos, buf, out =>
    if pos < s.length then
      if pos + 1 > s.length then some (.err out (.unexpectedEndOfStream pos))
      else
        (goSlice s pos (pos + 1)).bind fun flag =>
          if flag = ['0'] then
            if pos + 1 + 8 > s.length then some (.err out (.incompleteLiteral (pos + 1)))
            else
              (goSlice s (pos + 1) (pos + 1 + 8)).bind fun literalBits =>
                let charCode := bitsToNat literalBits
                if 32 ≤ charCode ∧ charCode ≤ 126 then
                  let buf1 := buf ++ [charCode]
                  if buf1.length > 1 <<< ob then
                    (goSliceFrom buf1 1).bind fun buf2 =>
                      decodeChkAux s ob lb fuel (pos + 1 + 8) buf2 (out ++ [charCode])
                  else decodeChkAux s ob lb fuel (pos + 1 + 8) buf1 (out ++ [charCode])
                else decodeChkAux s ob lb fuel (pos + 1 + 8) buf out
          else if flag = ['1'] then
            if pos + 1 + ob + lb > s.length then
              some (.err out (.incompleteBackReference (pos + 1)))
            else
              (goSlice s (pos + 1) (pos + 1 + ob)).bind fun offsetBitStr =>
                (goSlice s (pos + 1 + ob) (pos + 1 + ob + lb)).bind fun lengthBitStr =>
                  let off := bitsToNat offsetBitStr
                  let len := bitsToNat lengthBitStr
                  if off > buf.length ∨ len = 0 then
                    decodeChkAux s ob lb fuel (pos + 1 + ob + lb) buf out
                  else
                    (backRefCopyChk (buf.length - off) len buf).bind fun rc =>
                      if rc.2.length > 1 <<< ob then
                        (goSliceFrom rc.2 ((rc.2.length : Int) - ((1 <<< ob : Nat) : Int))).bind
                          fun buf2 =>
                            decodeChkAux s ob lb fuel (pos + 1 + ob + lb) buf2 (out ++ rc.1)
                      else decodeChkAux s ob lb fuel (pos + 1 + ob + lb) rc.2 (out ++ rc.1)
          else decodeChkAux s ob lb fuel (pos + 1) buf out
    else some (.ok out)

/-- Checked decode of a full bitstream. -/
def decodeLZ77Chk (bitStream : List Char) (offsetBits lengthBits : Nat) : Option DecodeResult :=
  decodeChkAux bitStream offsetBits lengthBits bitStream.length 0 [] []

/-! ### Lemmas about the back-reference copy loop -/

/-- If the source start index is not below the buffer length, the copy loop
stops immediately: nothing is emitted and the buffer is unchanged. -/
theorem backRefCopy_of_length_le (start n : Nat) (buf : List Nat) (h : buf.length ≤ start) :
    backRefCopy start n buf = ([], buf) := by
  cases n with
  | zero => rfl
  | succ n => simp [backRefCopy, Nat.not_lt.mpr h]

/-- For a source start index inside the buffer, the copy loop emits exactly
`n` bytes, the final buffer is the initial buffer extended by the emitted
bytes, and each emitted byte equals the byte at its source index of the
buffer as grown by the same copy (so overlapping self-referential copies read
bytes appended earlier in the same loop). -/
theorem backRefCopy_spec : ∀ (n start : Nat) (buf : List Nat), start < buf.length →
    (backRefCopy start n buf).2 = buf ++ (backRefCopy start n buf).1 ∧
    (backRefCopy start n buf).1.length = n ∧
    ∀ i < n, (backRefCopy start n buf).1[i]? = (buf ++ (backRefCopy start n buf).1)[start + i]?
  | 0, start, buf, _ => by simp [backRefCopy]
  | n + 1, start, buf, h => by
    have hget : buf.get ⟨start, h⟩ = buf[start] := rfl
    have h' : start + 1 < (buf ++ [buf.get ⟨start, h⟩]).length := by
      simp; omega
    obtain ⟨hb, hl, hi⟩ := backRefCopy_spec n (start + 1) (buf ++ [buf.get ⟨start, h⟩]) h'
    simp only [backRefCopy, dif_pos h]
    refine ⟨?_, by simpa using hl, ?_⟩
    · simpa [List.append_assoc] using hb
    · intro i hi'
      match i with
      | 0 =>
        simp [List.getElem?_append, h, List.getElem?_eq_getElem h, hget]
      | j + 1 =>
        have := hi j (by omega)
        simpa [List.append_assoc, Nat.add_comm, Nat.add_assoc, Nat.add_left_comm] using this

/-- Every byte emitted by the copy loop, and every byte of the resulting
buffer, comes from the initial buffer (so any pointwise property of the
buffer's bytes is preserved). -/
theorem backRefCopy_mem {P : Nat → Prop} : ∀ (n start : Nat) (buf : List Nat),
    (∀ c ∈ buf, P c) →
    (∀ c ∈ (backRefCopy start n buf).1, P c) ∧ (∀ c ∈ (backRefCopy start n buf).2, P c)
  | 0, start, buf, hbuf => by simpa [backRefCopy] using hbuf
  | n + 1, start, buf, hbuf => by
    by_cases h : start < buf.length
    · have hch : P (buf.get ⟨start, h⟩) := hbuf _ (buf.get_mem _ _)
      have hbuf' : ∀ c ∈ buf ++ [buf.get ⟨start, h⟩], P c := by
        intro c hc
        rcases List.mem_append.mp hc with hc | hc
        · exact hbuf c hc
        · simpa [List.mem_singleton.mp hc] using hch
      obtain ⟨h1, h2⟩ := backRefCopy_mem n (start + 1) (buf ++ [buf.get ⟨start, h⟩]) hbuf'
      simp only [backRefCopy, dif_pos h]
      refine ⟨?_, h2⟩
      intro c hc
      rcases List.mem_cons.mp hc with hc | hc
      · simpa [hc] using hch
      · exact h1 c hc
    · simpa [backRefCopy, h] using hbuf

/-! ### Fuel is irrelevant once it covers the remaining stream length -/

/-- Any two fuel values that both cover the remaining stream length give the
same result: the fuel passed by `decodeLZ77` (the full stream length) is
always sufficient, every loop iteration consuming at least one symbol. -/
theorem decodeAux_fuel_irrel (ob lb : Nat) :
    ∀ (f g : Nat) (rest : List Char) (pos : Nat) (buf out : List Nat),
      rest.length ≤ f → rest.length ≤ g →
      decodeAux ob lb f rest pos buf out = decodeAux ob lb g rest pos buf out := by
  intro f
  induction f with
  | zero =>
    intro g rest pos buf out hf _
    have h : rest = [] := List.eq_nil_of_length_eq_zero (by omega)
    subst h
    cases g <;> simp [decodeAux]
  | succ f ih =>
    intro g rest pos buf out hf hg
    cases rest with
    | nil => cases g <;> simp [decodeAux]
    | cons c rest =>
      cases g with
      | zero => simp at hg
      | succ g =>
        simp only [List.length_cons] at hf hg
        simp only [decodeAux]
        split_ifs <;>
          first
            | rfl
            | (apply ih <;> ((try simp only [List.length_drop]); omega))

/-! ### The `UnexpectedEndOfStream` branch is dead code -/

/-- The scan loop never returns `UnexpectedEndOfStream`: its guard
`position + 1 > len(bitStream)` is unreachable under the loop condition
`position < len(bitStream)`. -/
theorem decodeAux_not_eos (ob lb : Nat) :
    ∀ (fuel : Nat) (rest : List Char) (pos : Nat) (buf out : List Nat),
      (decodeAux ob lb fuel rest pos buf out).isEOSErr = false := by
  intro fuel
  induction fuel with
  | zero => intro rest pos buf out; simp [decodeAux, DecodeResult.isEOSErr]
  | succ f ih =>
    intro rest pos buf out
    cases rest with
    | nil => simp [decodeAux, DecodeResult.isEOSErr]
    | cons c rest =>
      simp only [decodeAux]
      rw [if_neg (by simp only [List.length_cons]; omega)]
      split_ifs <;> first | rfl | exact ih _ _ _ _

/-! ### Claim theorems -/

/-- C1, counterexample: on the empty bitstream (where the cursor has no room
for a flag bit at position 0), `decodeLZ77` returns success with empty
output, not the `UnexpectedEndOfStream` error at position 0 that the claim
requires. -/
theorem claim1_counterexample :
    decodeLZ77 [] 9 3 = .ok [] ∧
    decodeLZ77 [] 9 3 ≠ .err [] (.unexpectedEndOfStream 0) :=
  ⟨by decide, by decide⟩

/-- C1, amended: when the cursor has no room for one more flag bit, the scan
loop exits and `decodeLZ77` returns the output produced so far with success
(for the empty bitstream: empty output, success); the `UnexpectedEndOfStream`
error is never returned on any input, its guard being dead code under the
loop condition. -/
theorem claim1_amended (s : List Char) (ob lb : Nat) :
    (decodeLZ77 s ob lb).isEOSErr = false ∧ decodeLZ77 [] ob lb = .ok [] :=
  ⟨decodeAux_not_eos ob lb s.length s 0 [] [], by simp [decodeLZ77, decodeAux]⟩

/-- C5: after a '0' flag with fewer than 8 bits remaining, decoding stops and
fails with `IncompleteLiteral` at the cursor position just past the flag,
returning the accumulated output alongside the error; after a '1' flag with
fewer than `offsetBits + lengthBits` bits remaining, it fails likewise with
`IncompleteBackReference`. -/
theorem claim5_incomplete_errors (ob lb f : Nat) (rest : List Char) (pos : Nat)
    (buf out : List Nat) :
    (8 > rest.length →
      decodeAux ob lb (f + 1) ('0' :: rest) pos buf out =
        .err out (.incompleteLiteral (pos + 1))) ∧
    (ob + lb > rest.length →
      decodeAux ob lb (f + 1) ('1' :: rest) pos buf out =
        .err out (.incompleteBackReference (pos + 1))) :=
  ⟨fun h => by simp [decodeAux, h], fun h => by simp [decodeAux, h]⟩

/-- Witness for C5 at concrete inputs: a lone '0' flag and a lone '1' flag,
with nonempty accumulated output. -/
theorem claim5_witness :
    decodeAux 9 3 1 ['0'] 9 [65] [65] = .err [65] (.incompleteLiteral 10) ∧
    decodeAux 9 3 1 ['1'] 9 [65] [65] = .err [65] (.incompleteBackReference 10) :=
  ⟨(claim5_incomplete_errors 9 3 0 [] 9 [65] [65]).1 (by decide),
   (claim5_incomplete_errors 9 3 0 [] 9 [65] [65]).2 (by decide)⟩

/-- C7: a literal token whose parsed 8-bit big-endian value is outside
[32, 126] appends nothing to output or search buffer and raises no error,
decoding continuing at the next token; a value inside [32, 126] is appended
to both (the buffer then being trimmed to the window size). -/
theorem claim7_printable_filter (ob lb f : Nat) (rest : List Char) (pos : Nat)
    (buf out : List Nat) (hlen : 8 ≤ rest.length) :
    (¬(32 ≤ bitsToNat (rest.take 8) ∧ bitsToNat (rest.take 8) ≤ 126) →
      decodeAux ob lb (f + 1) ('0' :: rest) pos buf out =
        decodeAux ob lb f (rest.drop 8) (pos + 1 + 8) buf out) ∧
    ((32 ≤ bitsToNat (rest.take 8) ∧ bitsToNat (rest.take 8) ≤ 126) →
      decodeAux ob lb (f + 1) ('0' :: rest) pos buf out =
        decodeAux ob lb f (rest.drop 8) (pos + 1 + 8)
          (if (buf ++ [bitsToNat (rest.take 8)]).length > 1 <<< ob
           then (buf ++ [bitsToNat (rest.take 8)]).drop 1
           else buf ++ [bitsToNat (rest.take 8)])
          (out ++ [bitsToNat (rest.take 8)])) := by
  constructor
  · intro hpr
    simp [decodeAux, hpr, Nat.not_lt.mpr hlen]
  · intro hpr
    simp [decodeAux, hpr, Nat.not_lt.mpr hlen]

/-- Witness for C7 at concrete inputs: the non-printable literal value 10
(newline) is dropped; the printable value 65 ('A') is appended. -/
theorem claim7_witness :
    (decodeAux 9 3 1 ('0' :: "00001010".toList) 0 [] [] =
      decodeAux 9 3 0 [] 9 [] []) ∧
    (decodeAux 9 3 1 ('0' :: "01000001".toList) 0 [] [] =
      decodeAux 9 3 0 [] 9 [65] [65]) :=
  ⟨(claim7_printable_filter 9 3 0 ("00001010".toList) 0 [] [] (by decide)).1 (by decide),
   (claim7_printable_filter 9 3 0 ("01000001".toList) 0 [] [] (by decide)).2 (by decide)⟩

/-- C8: a flag symbol other than '0' or '1' executes neither branch: exactly
the flag symbol is consumed, buffer and output are unchanged, no error is
raised, and scanning continues at the next position. -/
theorem claim8_unknown_flag (ob lb f : Nat) (c : Char) (rest : List Char) (pos : Nat)
    (buf out : List Nat) (h0 : c ≠ '0') (h1 : c ≠ '1') :
    decodeAux ob lb (f + 1) (c :: rest) pos buf out =
      decodeAux ob lb f rest (pos + 1) buf out := by
  simp only [decodeAux]
  rw [if_neg (by simp only [List.length_cons]; omega), if_neg h0, if_neg h1]

/-- Witness for C8 at a concrete input: flag 'x' before a literal token. -/
theorem claim8_witness :
    decodeAux 9 3 2 ('x' :: ('0' :: "01000001".toList)) 0 [] [] =
      decodeAux 9 3 1 ('0' :: "01000001".toList) 1 [] [] :=
  claim8_unknown_flag 9 3 1 'x' ('0' :: "01000001".toList) 0 [] [] (by decide) (by decide)

/-- C4: a back-reference token whose parsed fields satisfy offset = 0,
length = 0, or offset > current search-buffer length emits nothing to output
or buffer, raises no error, and decoding continues at the next token with the
cursor advanced past the `offsetBits + lengthBits` body (stated for buffers
within the window bound, which holds in every reachable state). -/
theorem claim4_invalid_backref (ob lb f : Nat) (rest : List Char) (pos : Nat)
    (buf out : List Nat) (hlen : ob + lb ≤ rest.length) (hbuf : buf.length ≤ 1 <<< ob)
    (hinv : bitsToNat (rest.take ob) = 0 ∨ bitsToNat ((rest.drop ob).take lb) = 0 ∨
      buf.length < bitsToNat (rest.take ob)) :
    decodeAux ob lb (f + 1) ('1' :: rest) pos buf out =
      decodeAux ob lb f (rest.drop (ob + lb)) (pos + 1 + ob + lb) buf out := by
  by_cases hc : bitsToNat (rest.take ob) > buf.length ∨ bitsToNat ((rest.drop ob).take lb) = 0
  · simp [decodeAux, hc, Nat.not_lt.mpr hlen]
  · push_neg at hc
    have hoff : bitsToNat (rest.take ob) = 0 := by
      rcases hinv with h | h | h
      · exact h
      · exact absurd h hc.2
      · exact absurd h (Nat.not_lt.mpr hc.1)
    have hskip : backRefCopy (buf.length - bitsToNat (rest.take ob))
        (bitsToNat ((rest.drop ob).take lb)) buf = ([], buf) := by
      rw [hoff]
      exact backRefCopy_of_length_le _ _ _ (by omega)
    simp [decodeAux, Nat.not_lt.mpr hlen, hskip, Nat.not_lt.mpr hc.1, hc.2,
      Nat.not_lt.mpr hbuf]

/-- Witness for C4 at a concrete input: after the literal 'A', a
back-reference with offset 5 exceeding the buffer length 1 is skipped. -/
theorem claim4_witness :
    decodeAux 3 2 1 ('1' :: "10101".toList) 9 [65] [65] =
      decodeAux 3 2 0 [] 15 [65] [65] :=
  claim4_invalid_backref 3 2 0 ("10101".toList) 9 [65] [65] (by decide) (by decide)
    (by decide)

/-- C6: for a valid back-reference token (0 < offset ≤ current buffer length,
length > 0), the copy source start is the buffer length before the token's
appends minus the offset; exactly `length` bytes are emitted, each appended
to both output and search buffer as produced, so each emitted byte equals the
byte at its source index in the buffer as grown by the same token's appends
(overlapping self-referential copies); decoding continues at the next token
with no error, the buffer trimmed to the window; and a copy whose source
index is not below the buffer's current length stops with nothing emitted and
no error. -/
theorem claim6_valid_backref (ob lb f : Nat) (rest : List Char) (pos : Nat)
    (buf out : List Nat) (hlen : ob + lb ≤ rest.length)
    (hoff0 : 0 < bitsToNat (rest.take ob))
    (hoffle : bitsToNat (rest.take ob) ≤ buf.length)
    (hlen0 : 0 < bitsToNat ((rest.drop ob).take lb)) :
    (backRefCopy (buf.length - bitsToNat (rest.take ob))
        (bitsToNat ((rest.drop ob).take lb)) buf).2 =
      buf ++ (backRefCopy (buf.length - bitsToNat (rest.take ob))
        (bitsToNat ((rest.drop ob).take lb)) buf).1 ∧
    (backRefCopy (buf.length - bitsToNat (rest.take ob))
        (bitsToNat ((rest.drop ob).take lb)) buf).1.length =
      bitsToNat ((rest.drop ob).take lb) ∧
    (∀ i < bitsToNat ((rest.drop ob).take lb),
      (backRefCopy (buf.length - bitsToNat (rest.take ob))
          (bitsToNat ((rest.drop ob).take lb)) buf).1[i]? =
        (buf ++ (backRefCopy (buf.length - bitsToNat (rest.take ob))
          (bitsToNat ((rest.drop ob).take lb)) buf).1)[buf.length -
            bitsToNat (rest.take ob) + i]?) ∧
    (∀ (start n : Nat) (buf' : List Nat), buf'.length ≤ start →
      backRefCopy start n buf' = ([], buf')) ∧
    decodeAux ob lb (f + 1) ('1' :: rest) pos buf out =
      decodeAux ob lb f (rest.drop (ob + lb)) (pos + 1 + ob + lb)
        (if (buf ++ (backRefCopy (buf.length - bitsToNat (rest.take ob))
              (bitsToNat ((rest.drop ob).take lb)) buf).1).length > 1 <<< ob
         then (buf ++ (backRefCopy (buf.length - bitsToNat (rest.take ob))
              (bitsToNat ((rest.drop ob).take lb)) buf).1).drop
            ((buf ++ (backRefCopy (buf.length - bitsToNat (rest.take ob))
              (bitsToNat ((rest.drop ob).take lb)) buf).1).length - 1 <<< ob)
         else buf ++ (backRefCopy (buf.length - bitsToNat (rest.take ob))
              (bitsToNat ((rest.drop ob).take lb)) buf).1)
        (out ++ (backRefCopy (buf.length - bitsToNat (rest.take ob))
          (bitsToNat ((rest.drop ob).take lb)) buf).1) := by
  have hstart : buf.length - bitsToNat (rest.take ob) < buf.length := by omega
  obtain ⟨hb, hl, hi⟩ :=
    backRefCopy_spec (bitsToNat ((rest.drop ob).take lb))
      (buf.length - bitsToNat (rest.take ob)) buf hstart
  refine ⟨hb, hl, hi, fun start n buf' h => backRefCopy_of_length_le start n buf' h, ?_⟩
  have hnv : ¬(bitsToNat (rest.take ob) > buf.length ∨
      bitsToNat ((rest.drop ob).take lb) = 0) := by
    push_neg
    omega
  simp only [decodeAux]
  rw [if_neg (by simp only [List.length_cons]; omega), if_neg (by decide), if_true,
    if_neg (by omega), if_neg hnv, hb]

/-- Witness for C6 at a concrete input: buffer "AB", offset 1, length 3 —
an overlapping copy emitting three copies of 'B'. -/
theorem claim6_witness :
    (backRefCopy (List.length [65, 66] - bitsToNat (List.take 1 "111".toList))
        (bitsToNat (List.take 2 (List.drop 1 "111".toList))) [65, 66]).2 =
      [65, 66] ++ (backRefCopy (List.length [65, 66] - bitsToNat (List.take 1 "111".toList))
        (bitsToNat (List.take 2 (List.drop 1 "111".toList))) [65, 66]).1 ∧
    (backRefCopy (List.length [65, 66] - bitsToNat (List.take 1 "111".toList))
        (bitsToNat (List.take 2 (List.drop 1 "111".toList))) [65, 66]).1.length =
      bitsToNat (List.take 2 (List.drop 1 "111".toList)) ∧
    (∀ i < bitsToNat (List.take 2 (List.drop 1 "111".toList)),
      (backRefCopy (List.length [65, 66] - bitsToNat (List.take 1 "111".toList))
          (bitsToNat (List.take 2 (List.drop 1 "111".toList))) [65, 66]).1[i]? =
        ([65, 66] ++ (backRefCopy (List.length [65, 66] - bitsToNat (List.take 1 "111".toList))
          (bitsToNat (List.take 2 (List.drop 1 "111".toList))) [65, 66]).1)[
            List.length [65, 66] - bitsToNat (List.take 1 "111".toList) + i]?) ∧
    (∀ (start n : Nat) (buf' : List Nat), buf'.length ≤ start →
      backRefCopy start n buf' = ([], buf')) ∧
    decodeAux 1 2 (0 + 1) ('1' :: "111".toList) 18 [65, 66] [65, 66] =
      decodeAux 1 2 0 (List.drop (1 + 2) "111".toList) (18 + 1 + 1 + 2)
        (if ([65, 66] ++ (backRefCopy (List.length [65, 66] - bitsToNat (List.take 1 "111".toList))
              (bitsToNat (List.take 2 (List.drop 1 "111".toList))) [65, 66]).1).length > 1 <<< 1
         then ([65, 66] ++ (backRefCopy (List.length [65, 66] - bitsToNat (List.take 1 "111".toList))
              (bitsToNat (List.take 2 (List.drop 1 "111".toList))) [65, 66]).1).drop
            (([65, 66] ++ (backRefCopy (List.length [65, 66] - bitsToNat (List.take 1 "111".toList))
              (bitsToNat (List.take 2 (List.drop 1 "111".toList))) [65, 66]).1).length - 1 <<< 1)
         else [65, 66] ++ (backRefCopy (List.length [65, 66] - bitsToNat (List.take 1 "111".toList))
              (bitsToNat (List.take 2 (List.drop 1 "111".toList))) [65, 66]).1)
        ([65, 66] ++ (backRefCopy (List.length [65, 66] - bitsToNat (List.take 1 "111".toList))
          (bitsToNat (List.take 2 (List.drop 1 "111".toList))) [65, 66]).1) :=
  claim6_valid_backref 1 2 0 ("111".toList) 18 [65, 66] [65, 66] (by decide) (by decide)
    (by decide) (by decide)

/-! ### The literal-only round trip (P4) -/

/-- Parsing the 8-bit big-endian encoding of a printable byte value recovers
the value. -/
theorem bitsToNat_byteBits (c : Nat) (h32 : 32 ≤ c) (h126 : c ≤ 126) :
    bitsToNat (byteBits c) = c := by
  interval_cases c <;> rfl

theorem encodeLiterals_cons (c : Nat) (s : List Nat) :
    encodeLiterals (c :: s) = '0' :: (byteBits c ++ encodeLiterals s) := by
  simp [encodeLiterals]

theorem byteBits_length (c : Nat) : (byteBits c).length = 8 := by
  simp [byteBits]

/-- Decoding a literal-only encoding of printable bytes, from any state and
with any sufficient fuel, appends exactly those bytes to the output and
succeeds. -/
theorem decodeAux_encodeLiterals (ob lb : Nat) :
    ∀ (s : List Nat) (f : Nat) (pos : Nat) (buf out : List Nat),
      (∀ c ∈ s, 32 ≤ c ∧ c ≤ 126) → (encodeLiterals s).length ≤ f →
      decodeAux ob lb f (encodeLiterals s) pos buf out = .ok (out ++ s) := by
  intro s
  induction s with
  | nil =>
    intro f pos buf out _ _
    cases f <;> simp [encodeLiterals, decodeAux]
  | cons c s ih =>
    intro f pos buf out h hf
    have hc : 32 ≤ c ∧ c ≤ 126 := h c (by simp)
    have hs : ∀ x ∈ s, 32 ≤ x ∧ x ≤ 126 := fun x hx => h x (by simp [hx])
    rw [encodeLiterals_cons] at hf ⊢
    have hlen : (byteBits c ++ encodeLiterals s).length = 8 + (encodeLiterals s).length := by
      simp [byteBits_length]
    obtain ⟨f', rfl⟩ : ∃ f', f = f' + 1 :=
      ⟨f - 1, by simp only [List.length_cons] at hf; omega⟩
    have htake : (byteBits c ++ encodeLiterals s).take 8 = byteBits c :=
      List.take_left' (byteBits_length c)
    have hdrop : (byteBits c ++ encodeLiterals s).drop 8 = encodeLiterals s :=
      List.drop_left' (byteBits_length c)
    simp only [decodeAux, htake, hdrop, bitsToNat_byteBits c hc.1 hc.2]
    rw [if_neg (by simp only [List.length_cons]; omega), if_true,
      if_neg (by omega), if_pos hc,
      ih f' (pos + 1 + 8) _ (out ++ [c]) hs
        (by simp only [List.length_cons] at hf; omega)]
    simp

/-- C3: decoding the bitstream formed by a '0' flag plus the 8-bit big-endian
code of each character of a printable-ASCII string returns exactly that
string with no error, for any offsetBits and lengthBits. -/
theorem claim3_literal_roundtrip (s : List Nat) (ob lb : Nat)
    (hs : ∀ c ∈ s, 32 ≤ c ∧ c ≤ 126) :
    decodeLZ77 (encodeLiterals s) ob lb = .ok s := by
  have h := decodeAux_encodeLiterals ob lb s (encodeLiterals s).length 0 [] [] hs le_rfl
  simpa [decodeLZ77] using h

/-- Witness for C3 at a concrete input: the string "AB" (byte values 65, 66)
with offsetBits = 9 and lengthBits = 3. -/
theorem claim3_witness :
    decodeLZ77 (encodeLiterals [65, 66]) 9 3 = .ok [65, 66] :=
  claim3_literal_roundtrip [65, 66] 9 3 (by decide)

/-! ### Every output byte is printable (C10) -/

/-- Invariant: if every byte of the search buffer and of the accumulated
output is printable ASCII, then so is every byte of the final output,
returned with success or alongside an error — literals are filtered on
append, and back-references only copy bytes already in the buffer. -/
theorem decodeAux_output_printable (ob lb : Nat) :
    ∀ (f : Nat) (rest : List Char) (pos : Nat) (buf out : List Nat),
      (∀ c ∈ buf, 32 ≤ c ∧ c ≤ 126) → (∀ c ∈ out, 32 ≤ c ∧ c ≤ 126) →
      ∀ c ∈ (decodeAux ob lb f rest pos buf out).output, 32 ≤ c ∧ c ≤ 126 := by
  intro f
  induction f with
  | zero =>
    intro rest pos buf out _ ho
    simpa [decodeAux, DecodeResult.output] using ho
  | succ f ih =>
    intro rest pos buf out hb ho
    cases rest with
    | nil => simpa [decodeAux, DecodeResult.output] using ho
    | cons c rest =>
      simp only [decodeAux]
      rw [if_neg (by simp only [List.length_cons]; omega)]
      by_cases h0 : c = '0'
      · rw [if_pos h0]
        by_cases h8 : 8 > rest.length
        · rw [if_pos h8]; simpa [DecodeResult.output] using ho
        · rw [if_neg h8]
          by_cases hpr : 32 ≤ bitsToNat (rest.take 8) ∧ bitsToNat (rest.take 8) ≤ 126
          · rw [if_pos hpr]
            have hb1 : ∀ x ∈ buf ++ [bitsToNat (rest.take 8)], 32 ≤ x ∧ x ≤ 126 := by
              intro x hx
              rcases List.mem_append.mp hx with hx | hx
              · exact hb x hx
              · simpa [List.mem_singleton.mp hx] using hpr
            apply ih
            · intro x hx
              by_cases ht : (buf ++ [bitsToNat (rest.take 8)]).length > 1 <<< ob
              · rw [if_pos ht] at hx
                exact hb1 x (List.mem_of_mem_drop hx)
              · rw [if_neg ht] at hx
                exact hb1 x hx
            · intro x hx
              rcases List.mem_append.mp hx with hx | hx
              · exact ho x hx
              · simpa [List.mem_singleton.mp hx] using hpr
          · rw [if_neg hpr]
            exact ih _ _ _ _ hb ho
      · rw [if_neg h0]
        by_cases h1 : c = '1'
        · rw [if_pos h1]
          by_cases hl : ob + lb > rest.length
          · rw [if_pos hl]; simpa [DecodeResult.output] using ho
          · rw [if_neg hl]
            by_cases hnv : bitsToNat (rest.take ob) > buf.length ∨
                bitsToNat ((rest.drop ob).take lb) = 0
            · rw [if_pos hnv]
              exact ih _ _ _ _ hb ho
            · rw [if_neg hnv]
              obtain ⟨hem, hbuf2⟩ := backRefCopy_mem (P := fun x => 32 ≤ x ∧ x ≤ 126)
                (bitsToNat ((rest.drop ob).take lb))
                (buf.length - bitsToNat (rest.take ob)) buf hb
              apply ih
              · intro x hx
                by_cases ht : (backRefCopy (buf.length - bitsToNat (rest.take ob))
                    (bitsToNat ((rest.drop ob).take lb)) buf).2.length > 1 <<< ob
                · rw [if_pos ht] at hx
                  exact hbuf2 x (List.mem_of_mem_drop hx)
                · rw [if_neg ht] at hx
                  exact hbuf2 x hx
              · intro x hx
                rcases List.mem_append.mp hx with hx | hx
                · exact ho x hx
                · exact hem x hx
        · rw [if_neg h1]
          exact ih _ _ _ _ hb ho

/-- C10: every byte of the output returned by `decodeLZ77` — with success or
alongside an error — lies in the printable ASCII range [32, 126]. -/
theorem claim10_output_printable (s : List Char) (ob lb : Nat) (c : Nat)
    (hc : c ∈ (decodeLZ77 s ob lb).output) : 32 ≤ c ∧ c ≤ 126 :=
  decodeAux_output_printable ob lb s.length s 0 [] [] (by simp) (by simp) c hc

/-- Witness for C10 at a concrete input: the byte 65 in the output of decoding
the literal encoding of 'A'. -/
theorem claim10_witness :
    65 ∈ (decodeLZ77 ("001000001".toList) 9 3).output ∧ 32 ≤ 65 ∧ 65 ≤ 126 :=
  ⟨by decide, claim10_output_printable ("001000001".toList) 9 3 65 (by decide)⟩

/-! ### The window bound (C2) -/

/-- The instrumented copy loop computes the same emitted bytes and final
buffer as `backRefCopy`. -/
theorem backRefCopyObs_eq : ∀ (n start : Nat) (buf : List Nat),
    (backRefCopyObs start n buf).1 = (backRefCopy start n buf).1 ∧
    (backRefCopyObs start n buf).2.1 = (backRefCopy start n buf).2
  | 0, start, buf => by simp [backRefCopyObs, backRefCopy]
  | n + 1, start, buf => by
    by_cases h : start < buf.length
    · obtain ⟨h1, h2⟩ := backRefCopyObs_eq n (start + 1) (buf ++ [buf.get ⟨start, h⟩])
      simp only [backRefCopyObs, backRefCopy, dif_pos h]
      exact ⟨by rw [h1], h2⟩
    · simp [backRefCopyObs, backRefCopy, dif_neg h]

/-- The instrumented scan loop computes the same result as `decodeAux`. -/
theorem decodeObsAux_fst (ob lb : Nat) :
    ∀ (f : Nat) (rest : List Char) (pos : Nat) (buf out : List Nat),
      (decodeObsAux ob lb f rest pos buf out).1 = decodeAux ob lb f rest pos buf out := by
  intro f
  induction f with
  | zero => intro rest pos buf out; simp [decodeObsAux, decodeAux]
  | succ f ih =>
    intro rest pos buf out
    cases rest with
    | nil => simp [decodeObsAux, decodeAux]
    | cons c rest =>
      simp only [decodeObsAux, decodeAux, (backRefCopyObs_eq _ _ _).1,
        (backRefCopyObs_eq _ _ _).2]
      split_ifs <;> first | rfl | apply ih

/-- Invariant: starting from a buffer within the window bound, the buffer
length observed at every evaluation of the scan-loop condition (token
boundary) stays within `2^offsetBits`: the literal trim removes the one
excess byte an append can create, and the back-reference trim cuts the
buffer back to exactly the window size. -/
theorem decodeObsAux_entries_le (ob lb : Nat) :
    ∀ (f : Nat) (rest : List Char) (pos : Nat) (buf out : List Nat),
      buf.length ≤ 1 <<< ob →
      ∀ x ∈ (decodeObsAux ob lb f rest pos buf out).2.entries, x ≤ 1 <<< ob := by
  intro f
  induction f with
  | zero =>
    intro rest pos buf out hbuf x hx
    simp only [decodeObsAux] at hx
    simpa [List.mem_singleton.mp hx] using hbuf
  | succ f ih =>
    intro rest pos buf out hbuf x hx
    cases rest with
    | nil =>
      simp only [decodeObsAux] at hx
      simpa [List.mem_singleton.mp hx] using hbuf
    | cons c rest =>
      simp only [decodeObsAux] at hx
      rw [if_neg (by simp only [List.length_cons]; omega)] at hx
      by_cases h0 : c = '0'
      · rw [if_pos h0] at hx
        by_cases h8 : 8 > rest.length
        · rw [if_pos h8] at hx
          simpa [List.mem_singleton.mp hx] using hbuf
        · rw [if_neg h8] at hx
          by_cases hpr : 32 ≤ bitsToNat (rest.take 8) ∧ bitsToNat (rest.take 8) ≤ 126
          · rw [if_pos hpr] at hx
            rcases List.mem_cons.mp hx with hx | hx
            · omega
            · refine ih _ _ _ _ ?_ x hx
              by_cases ht : (buf ++ [bitsToNat (rest.take 8)]).length > 1 <<< ob
              · rw [if_pos ht]
                simp only [List.length_drop, List.length_append, List.length_singleton]
                omega
              · rw [if_neg ht]
                omega
          · rw [if_neg hpr] at hx
            rcases List.mem_cons.mp hx with hx | hx
            · omega
            · exact ih _ _ _ _ hbuf x hx
      · rw [if_neg h0] at hx
        by_cases h1 : c = '1'
        · rw [if_pos h1] at hx
          by_cases hl : ob + lb > rest.length
          · rw [if_pos hl] at hx
            simpa [List.mem_singleton.mp hx] using hbuf
          · rw [if_neg hl] at hx
            by_cases hnv : bitsToNat (rest.take ob) > buf.length ∨
                bitsToNat ((rest.drop ob).take lb) = 0
            · rw [if_pos hnv] at hx
              rcases List.mem_cons.mp hx with hx | hx
              · omega
              · exact ih _ _ _ _ hbuf x hx
            · rw [if_neg hnv] at hx
              rcases List.mem_cons.mp hx with hx | hx
              · omega
              · refine ih _ _ _ _ ?_ x hx
                by_cases ht : (backRefCopyObs (buf.length - bitsToNat (rest.take ob))
                    (bitsToNat ((rest.drop ob).take lb)) buf).2.1.length > 1 <<< ob
                · rw [if_pos ht]
                  simp only [List.length_drop]
                  omega
                · rw [if_neg ht]
                  omega
        · rw [if_neg h1] at hx
          rcases List.mem_cons.mp hx with hx | hx
          · omega
          · exact ih _ _ _ _ hbuf x hx

/-- C2, counterexample: decoding the stream built from literals 'A', 'B'
followed by a back-reference with offset 1 and length 3, with
offsetBits = 1 (window size 2) and lengthBits = 2, drives the search buffer
through intermediate lengths 3, 4 and 5 inside the back-reference token —
beyond 2^offsetBits — before the trim step runs, so the claimed bound on
every intermediate state fails. -/
theorem claim2_counterexample :
    ¬ (∀ x ∈ (decodeLZ77Trace ("0010000010010000101111".toList) 1 2).appends,
        x ≤ 1 <<< 1) := by
  decide

/-- C2, amended: at every token boundary — each evaluation of the scan-loop
condition, after the previous token's trim step — the search-buffer length is
at most `2^offsetBits`; inside a token the buffer can transiently exceed the
bound between an append and the trim. -/
theorem claim2_amended (s : List Char) (ob lb x : Nat)
    (hx : x ∈ (decodeLZ77Trace s ob lb).entries) : x ≤ 1 <<< ob :=
  decodeObsAux_entries_le ob lb s.length s 0 [] [] (by simp) x hx

/-- Witness for C2 (amended) at a concrete input: the run of the
counterexample stream, whose first token-boundary observation is 0. -/
theorem claim2_witness :
    0 ∈ (decodeLZ77Trace ("0010000010010000101111".toList) 1 2).entries ∧
    (0 : Nat) ≤ 1 <<< 1 :=
  ⟨by decide, claim2_amended ("0010000010010000101111".toList) 1 2 0 (by decide)⟩

/-! ### No panics: the checked embedding never fails (C9) -/

/-- A slice with ordered, in-range bounds succeeds and is a take of a drop. -/
theorem goSlice_eq (s : List Char) (a b : Nat) (hab : a ≤ b) (hb : b ≤ s.length) :
    goSlice s a b = some ((s.drop a).take (b - a)) := by
  simp [goSlice, hab, hb, List.drop_take]

/-- The literal-branch trim slice `searchBuffer[1:]` succeeds on a nonempty
buffer. -/
theorem goSliceFrom_one (s : List Nat) (h : 1 ≤ s.length) :
    goSliceFrom s 1 = some (s.drop 1) := by
  have h1 : (1 : Int) ≤ (s.length : Int) := by exact_mod_cast h
  simp [goSliceFrom, h1]

/-- The back-reference trim slice `searchBuffer[len-(1<<offsetBits):]`
succeeds when the window does not exceed the buffer length. -/
theorem goSliceFrom_sub (s : List Nat) (w : Nat) (h : w ≤ s.length) :
    goSliceFrom s ((s.length : Int) - (w : Int)) = some (s.drop (s.length - w)) := by
  have h0 : (0 : Int) ≤ (s.length : Int) - (w : Int) := by omega
  have h2 : (s.length : Int) - (w : Int) ≤ (s.length : Int) := by omega
  simp [goSliceFrom, h0, h2, Int.toNat_sub]

/-- The checked copy loop never panics: its guarded buffer read is always in
bounds, and it computes exactly `backRefCopy`. -/
theorem backRefCopyChk_eq : ∀ (n start : Nat) (buf : List Nat),
    backRefCopyChk start n buf = some (backRefCopy start n buf)
  | 0, _, _ => rfl
  | n + 1, start, buf => by
    by_cases h : start < buf.length
    · rw [backRefCopyChk, if_neg (by omega), List.getElem?_eq_getElem h]
      simp only [Option.some_bind]
      rw [backRefCopyChk_eq n (start + 1) (buf ++ [buf[start]])]
      simp only [Option.some_bind, backRefCopy, dif_pos h]
      rfl
    · rw [backRefCopyChk, if_pos (by omega),
        backRefCopy_of_length_le start (n + 1) buf (by omega)]


set_option maxHeartbeats 1000000 in
/-- The checked, cursor-indexed scan never panics: every slice and index it
performs is in bounds, and it computes exactly the plain decoder's result on
the corresponding stream suffix. -/
theorem decodeChkAux_eq (s : List Char) (ob lb : Nat) :
    ∀ (f pos : Nat) (buf out : List Nat),
      decodeChkAux s ob lb f pos buf out =
        some (decodeAux ob lb f (s.drop pos) pos buf out) := by
  intro f
  induction f with
  | zero => intro pos buf out; simp [decodeChkAux, decodeAux]
  | succ f ih =>
    intro pos buf out
    by_cases h : pos < s.length
    · have hd : s.drop pos = s[pos] :: s.drop (pos + 1) := List.drop_eq_getElem_cons h
      rw [hd]
      simp only [decodeChkAux]
      rw [if_pos h, if_neg (show ¬pos + 1 > s.length by omega)]
      rw [goSlice_eq s pos (pos + 1) (by omega) (by omega),
        show pos + 1 - pos = 1 by omega, hd,
        show (s[pos] :: List.drop (pos + 1) s).take 1 = [s[pos]] from rfl]
      simp only [Option.some_bind]
      simp only [decodeAux]
      rw [if_neg (show ¬pos + 1 > pos + (s[pos] :: List.drop (pos + 1) s).length by
        simp only [List.length_cons]; omega)]
      by_cases h0 : s[pos] = '0'
      · rw [if_pos (show [s[pos]] = ['0'] by rw [h0]), if_pos h0]
        by_cases hg : pos + 1 + 8 > s.length
        · rw [if_pos hg,
            if_pos (show 8 > (List.drop (pos + 1) s).length by
              simp only [List.length_drop]; omega)]
        · rw [if_neg hg,
            if_neg (show ¬8 > (List.drop (pos + 1) s).length by
              simp only [List.length_drop]; omega)]
          rw [goSlice_eq s (pos + 1) (pos + 1 + 8) (by omega) (by omega),
            show pos + 1 + 8 - (pos + 1) = 8 by omega]
          simp only [Option.some_bind]
          by_cases hpr : 32 ≤ bitsToNat ((s.drop (pos + 1)).take 8) ∧
              bitsToNat ((s.drop (pos + 1)).take 8) ≤ 126
          · rw [if_pos hpr, if_pos hpr]
            by_cases ht : (buf ++ [bitsToNat ((s.drop (pos + 1)).take 8)]).length > 1 <<< ob
            · rw [if_pos ht, if_pos ht, goSliceFrom_one _ (by simp)]
              simp only [Option.some_bind]
              rw [ih (pos + 1 + 8), List.drop_drop]
            · rw [if_neg ht, if_neg ht, ih (pos + 1 + 8), List.drop_drop]
          · rw [if_neg hpr, if_neg hpr, ih (pos + 1 + 8), List.drop_drop]
      · rw [if_neg (show ¬[s[pos]] = ['0'] by simp [h0]), if_neg h0]
        by_cases h1 : s[pos] = '1'
        · rw [if_pos (show [s[pos]] = ['1'] by rw [h1]), if_pos h1]
          by_cases hg : pos + 1 + ob + lb > s.length
          · rw [if_pos hg,
              if_pos (show ob + lb > (List.drop (pos + 1) s).length by
                simp only [List.length_drop]; omega)]
          · rw [if_neg hg,
              if_neg (show ¬ob + lb > (List.drop (pos + 1) s).length by
                simp only [List.length_drop]; omega)]
            rw [goSlice_eq s (pos + 1) (pos + 1 + ob) (by omega) (by omega),
              show pos + 1 + ob - (pos + 1) = ob by omega]
            simp only [Option.some_bind]
            rw [goSlice_eq s (pos + 1 + ob) (pos + 1 + ob + lb) (by omega) (by omega),
              show pos + 1 + ob + lb - (pos + 1 + ob) = lb by omega]
            simp only [Option.some_bind]
            rw [show s.drop (pos + 1 + ob) = (s.drop (pos + 1)).drop ob by
              rw [List.drop_drop]]
            by_cases hnv : bitsToNat ((s.drop (pos + 1)).take ob) > buf.length ∨
                bitsToNat (((s.drop (pos + 1)).drop ob).take lb) = 0
            · rw [if_pos hnv, if_pos hnv, ih (pos + 1 + ob + lb), List.drop_drop,
                show pos + 1 + (ob + lb) = pos + 1 + ob + lb by omega]
            · rw [if_neg hnv, if_neg hnv, backRefCopyChk_eq]
              simp only [Option.some_bind]
              by_cases ht : (backRefCopy
                  (buf.length - bitsToNat ((s.drop (pos + 1)).take ob))
                  (bitsToNat (((s.drop (pos + 1)).drop ob).take lb)) buf).2.length > 1 <<< ob
              · rw [if_pos ht, if_pos ht, goSliceFrom_sub _ _ (by omega)]
                simp only [Option.some_bind]
                rw [ih (pos + 1 + ob + lb), List.drop_drop, List.drop_drop,
                  show pos + 1 + (ob + lb) = pos + 1 + ob + lb by omega]
              · rw [if_neg ht, if_neg ht, ih (pos + 1 + ob + lb), List.drop_drop,
                  List.drop_drop,
                  show pos + 1 + (ob + lb) = pos + 1 + ob + lb by omega]
        · rw [if_neg (show ¬[s[pos]] = ['1'] by simp [h1]), if_neg h1, ih (pos + 1)]
    · simp only [decodeChkAux]
      rw [if_neg h, List.drop_eq_nil_of_le (by omega)]
      simp [decodeAux]

/-- C9: `decodeLZ77` never panics: executed with every string index and slice
modelled as a checked operation (`decodeLZ77Chk`), decoding always returns a
result value — the same `(output, error)` value as the plain decoder — and
never the `none` that marks an out-of-bounds access. -/
theorem claim9_no_panic (s : List Char) (ob lb : Nat) :
    decodeLZ77Chk s ob lb = some (decodeLZ77 s ob lb) := by
  have h := decodeChkAux_eq s ob lb s.length 0 [] []
  simpa [decodeLZ77Chk, decodeLZ77] using h

end Voynich
